import Mathlib

/-!
Verification of the ipcator shared-memory allocator stack
(`src/include/ipcator.hpp`) against its natural-language specification.
The C++ is shallowly embedded: each definition below mirrors one function
or code path of the header, with machine nondeterminism (kernel-chosen
base addresses, generated names, timing of file appearance) passed in as
explicit oracle parameters.
-/

namespace Ipcator

/-- Observable failure outcomes of the C++ code, one constructor per
distinct behaviour: `alignmentUnsupported` is the `TooLargeAlignment`
exception thrown by `ShM_Resource::do_allocate`; `invalidArgument` is the
`std::invalid_argument` thrown by `find_arena`; `notFound` is the
`std::filesystem::filesystem_error` with code `no_such_file_or_directory`
thrown by the accessor branch of `map_shm`; `outOfBounds` is the
bounds-check failure the spec attributes to `ShM_Reader::read` (the
header itself never produces it); `assertFailed` stands for a failing
`assert(...)` in a debug build, which aborts the process (in release
builds the same path is undefined behaviour, not an error return). -/
inductive Err where
  | alreadyExists
  | notFound
  | permissionDenied
  | outOfMemory
  | alignmentUnsupported
  | invalidArgument
  | outOfBounds
  | assertFailed
deriving DecidableEq, Repr

/-- Wrap modulus of `std::size_t` and `std::uintptr_t`, both 64 bits
wide on the hosts this header supports: 2^64. -/
def sizeMod : Nat := 18446744073709551616

/-- Embeds `utils::ceil_to_page_size` (ipcator.hpp:200-206):
`current_num_pages = min_length / getpagesize()`,
`need_one_more_page = min_length % getpagesize()` (as a bool),
result `(current_num_pages + need_one_more_page) * getpagesize()` —
computed in `std::size_t`, so the final product wraps modulo 2^64 (a
single outer reduction: the only intermediate that can exceed 2^64 is
`q + 1` at `q = 2^64 - 1`, where both readings give 0).  The host page
size `ps` (the value of `::getpagesize()`) is a parameter. -/
def ceil_to_page_size (ps : Nat) (min_length : Nat) : Nat :=
  (min_length / ps + if min_length % ps = 0 then 0 else 1) * ps % sizeMod

/-- Modelled from the spec: the mathematical `page_ceil` of §4.1 — the
smallest multiple of the host page size that is ≥ n, in unbounded
arithmetic.  It is the rendering used by the spec-modelled
monotonic-buffer algorithm (the `size_ceiled` of §4.5) and the
deallocation bound documented in §4.4; it agrees with the in-header
`ceil_to_page_size` everywhere below the top page of the `size_t`
range. -/
def page_ceil (ps : Nat) (min_length : Nat) : Nat :=
  (min_length / ps + if min_length % ps = 0 then 0 else 1) * ps

/-- Decimal digit list of `n`, most significant digit first, written with
a structural fuel argument so that the kernel can evaluate it.  This is
the digit sequence `std::format` prints for an unsigned value. -/
def decDigitsAux : Nat → Nat → List Char
  | 0, _ => []
  | fuel + 1, n =>
    if n < 10 then [Nat.digitChar n]
    else decDigitsAux fuel (n / 10) ++ [Nat.digitChar (n % 10)]

/-- Decimal representation of `n` as characters, most significant first. -/
def decDigits (n : Nat) : List Char := decDigitsAux (n + 1) n

/-- Embeds `std::format("{:06}", v)` (ipcator.hpp:717-720): the decimal
representation of `v`, left-padded with zeros to at least six
characters (values of seven or more digits are printed in full). -/
def fmt06 (v : Nat) : List Char :=
  List.replicate (6 - (decDigits v).length) '0' ++ decDigits v

/-- Numeric value of a decimal digit string (`'0'` has code 48); used to
show that the counter field determines the counter value. -/
def decVal (l : List Char) : Nat :=
  l.foldl (fun v c => v * 10 + (c.toNat - 48)) 0

/-- The constant part of a generated name (ipcator.hpp:754): the leading
slash, the fixed literal `ipcator` (ipcator.hpp:713), a dot, the
per-process random infix `rp` (drawn once per process from
`[0-9A-Za-z]`, ipcator.hpp:728-751; seven characters when the first call
happens while the counter field is six digits wide), and the dot that
precedes the counter field. -/
def name_stem (rp : List Char) : List Char :=
  '/' :: "ipcator".toList ++ '.' :: rp ++ ['.']

/-- The counter `cnt` of `generate_shm_UUName` is a `std::atomic_uint`
(32 bits on the supported hosts), so arithmetic on it wraps at this
modulus. -/
def uintMod : Nat := 4294967296

/-- Embeds `utils::generate_shm_UUName` (ipcator.hpp:710-757): the name
returned by the `k`-th call (0-based) of a process whose random infix is
`rp`.  The counter field is `std::format("{:06}", 1 + cnt.fetch_add(1))`
with `cnt` starting at 0, hence `(1 + k) mod 2^32` for the `k`-th call.
The intended total length is `len_name = 31 - sizeof(size_t) = 23`. -/
def generate_shm_UUName (rp : List Char) (k : Nat) : List Char :=
  name_stem rp ++ fmt06 ((1 + k) % uintMod)

/-- The accessor branch of `Shared_Memory::map_shm` waits at most 1 s
for the shm file while a helper task retries `shm_open` every 20 ms
(ipcator.hpp:406-424), so at most 50 polling slots fit in the bounded
wait. -/
def accessor_max_polls : Nat := 50

/-- The retry loop of the accessor branch (ipcator.hpp:407-415): poll
`avail` starting at attempt `k`; while the budget `fuel` lasts, a failed
attempt is followed by a 20 ms sleep and the next attempt; when the
budget is exhausted the constructor throws
`std::filesystem::filesystem_error` with code
`no_such_file_or_directory` (NotFound). -/
def poll_open (avail : Nat → Bool) : Nat → Nat → Except Err Nat
  | _, 0 => .error .notFound
  | k, fuel + 1 => if avail k then .ok k else poll_open avail (k + 1) fuel

/-- Embeds the accessor branch of `Shared_Memory::map_shm`
(ipcator.hpp:403-431): `avail j` tells whether the shm file exists at
the `j`-th poll (20 ms apart); the result is the index of the first
successful poll, or NotFound after the 1 s budget.  This branch
contains no `NDEBUG` conditional: it is compiled identically in debug
and release builds. -/
def map_shm_open (avail : Nat → Bool) : Except Err Nat :=
  poll_open avail 0 accessor_max_polls

/-- Embeds the creator branch of `Shared_Memory::map_shm` together with
the `Shared_Memory<true>` constructor (ipcator.hpp:250-263, 387-525).
`existing` lists the shm names already present.  `shm_open(name,
O_CREAT|O_EXCL|O_RDWR, 0777)` returns -1 when the name is taken; the
code never tests the descriptor, so the subsequent `ftruncate` fails and
`assert(result_resize != -1)` (ipcator.hpp:448) aborts the debug build.
With a fresh name, `ftruncate(fd, size)` succeeds for every size —
including 0 — and `assert(size)` (ipcator.hpp:468) aborts when
`size = 0`, before `mmap` is reached.  No branch throws
`std::invalid_argument`.  On success the backing file and the mapping
are both exactly `size` bytes long; the returned value is that length. -/
def map_shm_create (existing : List (List Char)) (name : List Char)
    (size : Nat) : Except Err Nat :=
  if name ∈ existing then .error .assertFailed
  else if size = 0 then .error .assertFailed
  else .ok size

/-- Embeds the size-discovery loop of the accessor branch
(ipcator.hpp:462-466): the constructor calls `fstat` until `st_size` is
nonzero and then maps exactly `st_size` bytes; if the size never becomes
nonzero the loop does not return (modelled as `none`). -/
def fstat_wait_len (st_size : Nat) : Option Nat :=
  if st_size = 0 then none else some st_size

/-- One `Shared_Memory<true>` owned by a `ShM_Resource`: the shm file
name, the base address chosen by `mmap`, and the mapped length
(`std::span` size). -/
structure Region where
  name : List Char
  base : Nat
  len : Nat
deriving DecidableEq, Repr

/-- Embeds the `obj_in_shm` test of `ShM_Resource::find_arena`
(ipcator.hpp:1185-1189): `cbegin(shm) ≤ obj` and
`(const char *)(uintptr_t(obj) + 1) ≤ cend(shm)`, addresses read as
byte offsets into the address space.  The `+ 1` is computed in
`std::uintptr_t`, so at `obj = UINTPTR_MAX` it wraps to the null
pointer and the upper check passes spuriously. -/
def obj_in_shm (obj : Nat) (shm : Region) : Prop :=
  shm.base ≤ obj ∧ (obj + 1) % sizeMod ≤ shm.base + shm.len

instance (obj : Nat) (shm : Region) : Decidable (obj_in_shm obj shm) :=
  inferInstanceAs (Decidable (_ ∧ _))

/-- Insertion into the `std::set` of `ShM_Resource<std::set>`, which
orders its elements by base address (comparator `ShM_As_Addr`,
ipcator.hpp:810-852). -/
def insertByBase (r : Region) : List Region → List Region
  | [] => [r]
  | x :: xs => if r.base < x.base then r :: x :: xs else x :: insertByBase r xs

/-- Embeds `ShM_Resource<std::set>::do_allocate` (ipcator.hpp:900-946)
in the default (non-`IPCATOR_OFAST`) build: when `alignment` exceeds the
page size `ps` the function throws `TooLargeAlignment` before anything
is created or inserted; otherwise it constructs a fresh
`Shared_Memory<true>` — the generated name and the kernel-chosen base
address are the oracle parameters `name` and `base`; `assert(size)`
inside `map_shm` rules out `size = 0` and `assert(ok)` after `emplace`
rules out a duplicate base — inserts it into the address-ordered set,
and returns the base of the new region. -/
def do_allocate_ordered (ps : Nat) (st : List Region) (name : List Char)
    (base : Nat) (size alignment : Nat) : Except Err (Nat × List Region) :=
  if ps < alignment then .error .alignmentUnsupported
  else if size = 0 then .error .assertFailed
  else if st.any (fun r => r.base == base) then .error .assertFailed
  else .ok (base, insertByBase ⟨name, base, size⟩ st)

/-- State of `ShM_Resource<std::unordered_set>`: the hash set of owned
regions (hashed by base address) plus the `last_inserted` pointer
(ipcator.hpp:1204-1214). -/
structure HashedResource where
  resources : List Region
  last_inserted : Option Region
deriving DecidableEq, Repr

/-- Embeds `ShM_Resource<std::unordered_set>::do_allocate` — the same
code path as the ordered variant (ipcator.hpp:900-946) with the
additional update `last_inserted = std::to_address(inserted)`
(ipcator.hpp:935-941). -/
def do_allocate_hashed (ps : Nat) (st : HashedResource) (name : List Char)
    (base : Nat) (size alignment : Nat) :
    Except Err (Nat × HashedResource) :=
  if ps < alignment then .error .alignmentUnsupported
  else if size = 0 then .error .assertFailed
  else if st.resources.any (fun r => r.base == base) then
    .error .assertFailed
  else .ok (base, ⟨⟨name, base, size⟩ :: st.resources,
    some ⟨name, base, size⟩⟩)

/-- The predecessor search of the ordered `find_arena`
(ipcator.hpp:1191-1194): `resources.upper_bound(obj)` stepped back by
one, that is, the last region whose base is ≤ `obj` in the base-sorted
set. -/
def lastLE (obj : Nat) : List Region → Option Region
  | [] => none
  | x :: xs => if x.base ≤ obj then some ((lastLE obj xs).getD x) else none

/-- The final bounds check and throw of `find_arena`
(ipcator.hpp:1192-1202), applied to the result of the predecessor
search: if a predecessor exists and the `obj_in_shm` check passes,
return it, otherwise throw `std::invalid_argument`. -/
def check_arena (obj : Nat) : Option Region → Except Err Region
  | some shm =>
    if obj_in_shm obj shm then .ok shm else .error .invalidArgument
  | none => .error .invalidArgument

/-- Embeds `ShM_Resource<std::set>::find_arena` (ipcator.hpp:1184-1203):
the predecessor search followed by the bounds check. -/
def find_arena (st : List Region) (obj : Nat) : Except Err Region :=
  check_arena obj (lastLE obj st)

/-- Align `addr` upward to the next multiple of `align`: the pointer
adjustment a monotonic buffer performs before carving out a block. -/
def alignUp (addr align : Nat) : Nat :=
  if align = 0 then addr else (addr + align - 1) / align * align

/-- Modelled from the spec: the allocation state of
`std::pmr::monotonic_buffer_resource`, the standard-library base class
of `Monotonic_ShM_Buffer` (ipcator.hpp:1304-1414) whose implementation
is outside this repository.  Following spec §4.5, the state is the
current region, the bump cursor (an absolute address), the size of the
next chunk to request, and the owned upstream
`ShM_Resource<std::unordered_set>`. -/
structure MonoBuffer where
  current : Option Region
  cursor : Nat
  next_chunk : Nat
  upstream : HashedResource
deriving DecidableEq, Repr

/-- The constructor `Monotonic_ShM_Buffer(initial_size)`
(ipcator.hpp:1314-1326): the buffer starts empty — the first allocation
is lazy — with a fresh upstream and initial chunk size
`ceil_to_page_size(initial_size)`. -/
def mono_init (ps initial_size : Nat) : MonoBuffer :=
  ⟨none, 0, ceil_to_page_size ps initial_size, ⟨[], none⟩⟩

/-- Modelled from the spec (§4.5 step 2): when a request does not fit,
the buffer obtains a new region from the upstream of size
`max(page_ceil(size), next_chunk)`, makes it current, at least doubles
`next_chunk` (geometric growth), and serves the request from the start
of the new region.  `name` and `base` are the oracle inputs consumed by
the upstream allocation. -/
def mono_refill (ps : Nat) (name : List Char) (base : Nat)
    (size alignment : Nat) (st : MonoBuffer) :
    Except Err (Nat × MonoBuffer) :=
  match do_allocate_hashed ps st.upstream name base
      (max (page_ceil ps size) st.next_chunk) alignment with
  | .error e => .error e
  | .ok (b, up) =>
    .ok (alignUp b alignment,
      ⟨some ⟨name, b, max (page_ceil ps size) st.next_chunk⟩,
        alignUp b alignment + size, st.next_chunk * 2, up⟩)

/-- Modelled from the spec (§4.5): `allocate(size, alignment)` aligns
the cursor; when the aligned block fits inside the current region the
cursor advances and the aligned address is returned, otherwise the
buffer refills from the upstream. -/
def mono_allocate (ps : Nat) (name : List Char) (base : Nat)
    (size alignment : Nat) : MonoBuffer → Except Err (Nat × MonoBuffer)
  | ⟨some r, cursor, next_chunk, up⟩ =>
    if alignUp cursor alignment + size ≤ r.base + r.len then
      .ok (alignUp cursor alignment,
        ⟨some r, alignUp cursor alignment + size, next_chunk, up⟩)
    else mono_refill ps name base size alignment
      ⟨some r, cursor, next_chunk, up⟩
  | ⟨none, cursor, next_chunk, up⟩ =>
    mono_refill ps name base size alignment ⟨none, cursor, next_chunk, up⟩

/-- Invariant tying a monotonic buffer to its upstream: whenever a
current region exists it is exactly the upstream's `last_inserted`
region and the cursor lies within its byte range. -/
def MonoInv (st : MonoBuffer) : Prop :=
  ∀ r, st.current = some r →
    st.upstream.last_inserted = some r
    ∧ r.base ≤ st.cursor ∧ st.cursor ≤ r.base + r.len

/-- One entry of the `ShM_Reader` cache (ipcator.hpp:1767): the key is a
`Shared_Memory<false, writable>` — represented here by its name and
mapped length — and the mapped value is the outstanding-borrow count. -/
structure CacheEntry where
  name : List Char
  len : Nat
  cnt : Nat
deriving DecidableEq, Repr

/-- The cache lookup of `select_shm` (ipcator.hpp:1701-1717):
`cache.find(name)`, entries compared by name (`ShM_As_Str`,
ipcator.hpp:1729-1766). -/
def findEntry (st : List CacheEntry) (n : List Char) : Option CacheEntry :=
  st.find? (fun e => e.name == n)

/-- The shm namespace visible to the reader: the byte length of the file
behind each existing name.  Consulted when an absent name makes
`select_shm` construct a new accessor `Shared_Memory`. -/
def fsLookup (fs : List (List Char × Nat)) (n : List Char) : Option Nat :=
  (fs.find? (fun q => q.1 == n)).map (fun q => q.2)

/-- Embeds `ShM_Reader::select_shm` (ipcator.hpp:1694-1726): when the
name is cached, return its entry without touching the cache; otherwise
construct an accessor `Shared_Memory` for it (mapping the file's exact
length) and `emplace` it with borrow count 0; a name with no backing
file makes the accessor constructor fail with NotFound. -/
def select_shm (fs : List (List Char × Nat)) (st : List CacheEntry)
    (n : List Char) : Except Err (CacheEntry × List CacheEntry) :=
  match findEntry st n with
  | some e => .ok (e, st)
  | none =>
    match fsLookup fs n with
    | some len => .ok (⟨n, len, 0⟩, st ++ [⟨n, len, 0⟩])
    | none => .error .notFound

/-- The borrow-count update applied to the cache entry for name `n`:
`f = (+1)` is the `++cnt_ref` of the `Iterator` constructor and
`f = (-1)` the `--cnt_ref` of its destructor (ipcator.hpp:1653-1657). -/
def mapCnt (f : Nat → Nat) (st : List CacheEntry) (n : List Char) :
    List CacheEntry :=
  st.map (fun e => if e.name == n then ⟨e.name, e.len, f e.cnt⟩ else e)

/-- Embeds `ShM_Reader::read<T>` (ipcator.hpp:1643-1674).  `sizeT` is
`sizeof(T)`; the source receives it but never compares it — nor the
offset — against the region length: there is no bounds check anywhere in
`read` or `select_shm`.  The returned borrow references
`data(shm) + offset`, modelled as the pair `(name, offset)`, and its
construction increments the borrow count of the entry read from. -/
def read (sizeT : Nat) (fs : List (List Char × Nat))
    (st : List CacheEntry) (n : List Char) (offset : Nat) :
    Except Err ((List Char × Nat) × List CacheEntry) :=
  match select_shm fs st n with
  | .ok (e, st1) => .ok ((e.name, offset), mapCnt (fun c => c + 1) st1 n)
  | .error e2 => .error e2

/-- Destroying the borrow returned by `read` (the `Iterator` destructor,
ipcator.hpp:1657): decrement the borrow count of the entry it came
from. -/
def drop_borrow (st : List CacheEntry) (n : List Char) : List CacheEntry :=
  mapCnt (fun c => c - 1) st n

/-- Embeds `ShM_Reader::gc_` (ipcator.hpp:1681-1692):
`std::erase_if(cache, [](pair){ return pair.second == 0; })` — drop
exactly the entries whose borrow count is 0, keep the rest, and return
how many were dropped. -/
def gc_ (st : List CacheEntry) : Nat × List CacheEntry :=
  ((st.filter (fun e => e.cnt == 0)).length,
   st.filter (fun e => e.cnt != 0))

/-- The borrow count the cache holds for name `n` (0 when absent). -/
def lookupCnt (st : List CacheEntry) (n : List Char) : Nat :=
  match findEntry st n with
  | some e => e.cnt
  | none => 0

end Ipcator

namespace Ipcator

theorem page_ceil_dvd (ps n : Nat) : ps ∣ page_ceil ps n :=
  ⟨n / ps + if n % ps = 0 then 0 else 1, Nat.mul_comm _ _⟩

theorem le_page_ceil (ps n : Nat) (hps : 0 < ps) : n ≤ page_ceil ps n := by
  unfold page_ceil
  have hdm := Nat.div_add_mod n ps
  by_cases h : n % ps = 0
  · rw [if_pos h, Nat.add_zero, Nat.mul_comm]
    omega
  · rw [if_neg h, Nat.add_mul, one_mul, Nat.mul_comm]
    have hlt : n % ps < ps := Nat.mod_lt _ hps
    omega

theorem page_ceil_le (ps n m : Nat) (hps : 0 < ps)
    (hdvd : ps ∣ m) (hnm : n ≤ m) : page_ceil ps n ≤ m := by
  obtain ⟨k, rfl⟩ := hdvd
  unfold page_ceil
  have hdm := Nat.div_add_mod n ps
  by_cases h : n % ps = 0
  · simp only [h, if_pos rfl]
    have : n / ps ≤ k := Nat.le_of_mul_le_mul_left (by omega) hps
    calc (n / ps + 0) * ps = ps * (n / ps) := by ring
    _ ≤ ps * k := Nat.mul_le_mul_left ps this
  · rw [if_neg h]
    have h1 : ps * (n / ps) < ps * k := by omega
    have h2 : n / ps < k := Nat.lt_of_mul_lt_mul_left h1
    calc (n / ps + 1) * ps = ps * (n / ps + 1) := by ring
    _ ≤ ps * k := Nat.mul_le_mul_left ps (by omega)

theorem page_ceil_of_dvd (ps n : Nat) (hps : 0 < ps) (h : ps ∣ n) :
    page_ceil ps n = n := by
  apply Nat.le_antisymm
  · exact page_ceil_le ps n n hps h le_rfl
  · exact le_page_ceil ps n hps

theorem page_ceil_lt_add (ps n : Nat) (hps : 0 < ps) :
    page_ceil ps n < n + ps := by
  unfold page_ceil
  have hdm := Nat.div_add_mod n ps
  by_cases h : n % ps = 0
  · rw [if_pos h, Nat.add_zero, Nat.mul_comm]
    omega
  · rw [if_neg h, Nat.add_mul, one_mul, Nat.mul_comm]
    have hlt : n % ps < ps := Nat.mod_lt _ hps
    omega

theorem ceil_to_page_size_eq_page_ceil (ps n : Nat) :
    ceil_to_page_size ps n = page_ceil ps n % sizeMod := rfl

theorem ceil_to_page_size_of_fit (ps n : Nat) (hps : 0 < ps)
    (hfit : n + ps ≤ sizeMod) : ceil_to_page_size ps n = page_ceil ps n := by
  rw [ceil_to_page_size_eq_page_ceil]
  exact Nat.mod_eq_of_lt (lt_of_lt_of_le (page_ceil_lt_add ps n hps) hfit)

theorem ceil_to_page_size_fixed (ps x : Nat) (hps : 0 < ps)
    (hdx : ps ∣ x) (hlt : x < sizeMod) : ceil_to_page_size ps x = x := by
  rw [ceil_to_page_size_eq_page_ceil, page_ceil_of_dvd ps x hps hdx]
  exact Nat.mod_eq_of_lt hlt

theorem ceil_to_page_size_closed (ps n : Nat) (hps : 0 < ps)
    (hdvd64 : ps ∣ sizeMod) :
    ps ∣ ceil_to_page_size ps n ∧ ceil_to_page_size ps n < sizeMod := by
  obtain ⟨M, hM⟩ := hdvd64
  have hM0 : 0 < M := by
    rcases Nat.eq_zero_or_pos M with h0 | h1
    · rw [h0, Nat.mul_zero] at hM
      exact absurd hM (by simp [sizeMod])
    · exact h1
  rw [ceil_to_page_size_eq_page_ceil, page_ceil, hM, Nat.mul_comm _ ps,
    Nat.mul_mod_mul_left]
  exact ⟨Dvd.intro _ rfl, mul_lt_mul_of_pos_left (Nat.mod_lt _ hM0) hps⟩

/-- Claim C9 (amended): `ceil_to_page_size` computes in `std::size_t`
and wraps modulo 2^64: whenever the exact ceiling fits in `size_t`
(`n + page size ≤ 2^64`) it returns the smallest multiple of the host
page size that is ≥ n; `ceil_to_page_size(0) = 0`; it is idempotent for
every input (host page sizes divide 2^64); it is the identity on exact
multiples of the page size below 2^64; and for `n` in the top page of
the `size_t` range the product wraps and the function returns 0. -/
theorem ceil_to_page_size_correct (ps n : Nat) (hps : 0 < ps)
    (hdvd64 : ps ∣ sizeMod) :
    (n + ps ≤ sizeMod →
      ps ∣ ceil_to_page_size ps n
      ∧ n ≤ ceil_to_page_size ps n
      ∧ ∀ m, ps ∣ m → n ≤ m → ceil_to_page_size ps n ≤ m)
    ∧ ceil_to_page_size ps 0 = 0
    ∧ ceil_to_page_size ps (ceil_to_page_size ps n)
        = ceil_to_page_size ps n
    ∧ (∀ k, k * ps < sizeMod → ceil_to_page_size ps (k * ps) = k * ps)
    ∧ (sizeMod - ps < n → n < sizeMod → ceil_to_page_size ps n = 0) := by
  refine ⟨?_, ?_, ?_, ?_, ?_⟩
  · intro hfit
    rw [ceil_to_page_size_of_fit ps n hps hfit]
    exact ⟨page_ceil_dvd ps n, le_page_ceil ps n hps,
      fun m hd hl => page_ceil_le ps n m hps hd hl⟩
  · simp [ceil_to_page_size, page_ceil]
  · obtain ⟨hd, hlt⟩ := ceil_to_page_size_closed ps n hps hdvd64
    exact ceil_to_page_size_fixed ps _ hps hd hlt
  · intro k hk
    exact ceil_to_page_size_fixed ps _ hps (dvd_mul_left ps k) hk
  · intro hlo hhi
    have h2 : page_ceil ps n ≤ sizeMod :=
      page_ceil_le ps n sizeMod hps hdvd64 (le_of_lt hhi)
    have h4 : page_ceil ps n = sizeMod := by
      obtain ⟨M, hM⟩ := hdvd64
      have hM0 : 0 < M := by
        rcases Nat.eq_zero_or_pos M with h0 | h1
        · rw [h0, Nat.mul_zero] at hM
          exact absurd hM (by simp [sizeMod])
        · exact h1
      obtain ⟨c, hc⟩ := page_ceil_dvd ps n
      have h1 : n ≤ page_ceil ps n := le_page_ceil ps n hps
      have hB : ps * (M - 1) = ps * M - ps := by
        cases M with
        | zero => omega
        | succ m => simp [Nat.mul_succ]
      rw [hc] at h1 h2 ⊢
      rw [hM] at h2 hlo ⊢
      have hcM : c ≤ M := Nat.le_of_mul_le_mul_left h2 hps
      have hMc : M - 1 < c := by
        by_contra hcon
        push_neg at hcon
        have hle : ps * c ≤ ps * (M - 1) := Nat.mul_le_mul_left ps hcon
        omega
      have : c = M := by omega
      rw [this]
    rw [ceil_to_page_size_eq_page_ceil, h4, Nat.mod_self]

/-- Witness for C9 (amended) at the common host page size 4096 and a
request of 5000 bytes, which fits comfortably in `size_t`. -/
theorem ceil_to_page_size_correct_witness :
    (4096 ∣ ceil_to_page_size 4096 5000
      ∧ 5000 ≤ ceil_to_page_size 4096 5000
      ∧ ∀ m, 4096 ∣ m → 5000 ≤ m → ceil_to_page_size 4096 5000 ≤ m)
    ∧ ceil_to_page_size 4096 0 = 0
    ∧ ceil_to_page_size 4096 (ceil_to_page_size 4096 5000)
        = ceil_to_page_size 4096 5000
    ∧ ceil_to_page_size 4096 (3 * 4096) = 3 * 4096 := by
  obtain ⟨h1, h2, h3, h4, -⟩ := ceil_to_page_size_correct 4096 5000
    (by decide) ⟨4503599627370496, by decide⟩
  exact ⟨h1 (by decide), h2, h3, h4 3 (by decide)⟩

/-- Counterexample to C9 as stated: at the top of the `size_t` range the
product wraps — `ceil_to_page_size(SIZE_MAX)` returns 0, which is not a
multiple of the page size that is ≥ SIZE_MAX. -/
theorem ceil_to_page_size_wraps :
    ceil_to_page_size 4096 (sizeMod - 1) = 0
    ∧ ¬ sizeMod - 1 ≤ ceil_to_page_size 4096 (sizeMod - 1) := by
  constructor <;> decide

theorem decDigitsAux_congr (n : Nat) : ∀ f g, n < f → n < g →
    decDigitsAux f n = decDigitsAux g n := by
  induction n using Nat.strong_induction_on with
  | _ n ih =>
    intro f g hf hg
    cases f with
    | zero => omega
    | succ f =>
      cases g with
      | zero => omega
      | succ g =>
        simp only [decDigitsAux]
        by_cases h : n < 10
        · rw [if_pos h, if_pos h]
        · rw [if_neg h, if_neg h]
          have hd : n / 10 < n := Nat.div_lt_self (by omega) (by omega)
          rw [ih (n / 10) hd f g (by omega) (by omega)]

theorem decDigits_unfold (n : Nat) :
    decDigits n =
      if n < 10 then [Nat.digitChar n]
      else decDigits (n / 10) ++ [Nat.digitChar (n % 10)] := by
  show decDigitsAux (n + 1) n = _
  simp only [decDigitsAux]
  by_cases h : n < 10
  · rw [if_pos h, if_pos h]
  · rw [if_neg h, if_neg h]
    have hd : n / 10 < n := Nat.div_lt_self (by omega) (by omega)
    rw [decDigitsAux_congr (n / 10) n (n / 10 + 1) (by omega) (by omega)]
    rfl

theorem decDigits_length_le (e : Nat) : ∀ n, 0 < e → n < 10 ^ e →
    (decDigits n).length ≤ e := by
  induction e with
  | zero => omega
  | succ e ih =>
    intro n _ hn
    rw [decDigits_unfold]
    by_cases h : n < 10
    · rw [if_pos h]
      simp
    · rw [if_neg h]
      have he : 0 < e := by
        rcases Nat.eq_zero_or_pos e with h0 | h1
        · subst h0; simp at hn; omega
        · exact h1
      have hdiv : n / 10 < 10 ^ e := by
        rw [Nat.div_lt_iff_lt_mul (by omega)]
        calc n < 10 ^ (e + 1) := hn
        _ = 10 ^ e * 10 := by rw [Nat.pow_succ]
      have := ih (n / 10) he hdiv
      simp only [List.length_append, List.length_cons, List.length_nil]
      omega

theorem decVal_digit (m : Nat) (h : m < 10) :
    (Nat.digitChar m).toNat - 48 = m := by
  interval_cases m <;> decide

theorem decVal_decDigits (n : Nat) : decVal (decDigits n) = n := by
  induction n using Nat.strong_induction_on with
  | _ n ih =>
    rw [decDigits_unfold]
    by_cases h : n < 10
    · rw [if_pos h]
      simp [decVal, decVal_digit n h]
    · rw [if_neg h]
      have hd : n / 10 < n := Nat.div_lt_self (by omega) (by omega)
      have hm : n % 10 < 10 := Nat.mod_lt _ (by omega)
      simp only [decVal, List.foldl_append, List.foldl_cons, List.foldl_nil]
      show decVal (decDigits (n / 10)) * 10 + _ = n
      rw [ih (n / 10) hd, decVal_digit _ hm]
      omega

theorem decVal_replicate_zero (k : Nat) (l : List Char) :
    decVal (List.replicate k '0' ++ l) = decVal l := by
  have hz : ∀ k, List.foldl (fun v c => v * 10 + (c.toNat - 48)) 0
      (List.replicate k '0') = 0 := by
    intro k
    induction k with
    | zero => rfl
    | succ k ihk => simpa [List.replicate_succ] using ihk
  simp [decVal, List.foldl_append, hz]

theorem decVal_fmt06 (v : Nat) : decVal (fmt06 v) = v := by
  rw [fmt06, decVal_replicate_zero, decVal_decDigits]

theorem fmt06_inj {a b : Nat} (h : fmt06 a = fmt06 b) : a = b := by
  have := congrArg decVal h
  rwa [decVal_fmt06, decVal_fmt06] at this

theorem append_cancel_of_eq {α : Type} (l : List α) {a b : List α}
    (h : l ++ a = l ++ b) : a = b := by
  induction l with
  | nil => simpa using h
  | cons x xs ih => exact ih (by simpa using h)

theorem fmt06_length (v : Nat) (h : (decDigits v).length ≤ 6) :
    (fmt06 v).length = 6 := by
  simp only [fmt06, List.length_append, List.length_replicate]
  omega

/-- Claim C2 (amended): the k-th name generated by a process whose
random infix has the standard seven characters is exactly 23 characters
long, including the leading slash, as long as fewer than 999999 names
have been generated (the claimed 248 does not hold for any call); and
two calls return the same name only if their counter values agree modulo
2^32, so distinct calls before the counter wraps never collide. -/
theorem generate_shm_UUName_correct (rp : List Char) (hrp : rp.length = 7) :
    (∀ k, k < 999999 → (generate_shm_UUName rp k).length = 23)
    ∧ ∀ i j, i % uintMod ≠ j % uintMod →
        generate_shm_UUName rp i ≠ generate_shm_UUName rp j := by
  constructor
  · intro k hk
    have hmod : (1 + k) % uintMod = 1 + k :=
      Nat.mod_eq_of_lt (by simp only [uintMod]; omega)
    have hlen : (decDigits ((1 + k) % uintMod)).length ≤ 6 := by
      rw [hmod]
      exact decDigits_length_le 6 (1 + k) (by omega) (by norm_num; omega)
    simp only [generate_shm_UUName, name_stem, List.length_append,
      List.length_cons, fmt06_length _ hlen, hrp]
    rfl
  · intro i j hij heq
    apply hij
    have h1 : fmt06 ((1 + i) % uintMod) = fmt06 ((1 + j) % uintMod) :=
      append_cancel_of_eq (name_stem rp) heq
    have h2 : (1 + i) % uintMod = (1 + j) % uintMod := fmt06_inj h1
    simp only [uintMod] at h2 ⊢
    omega

/-- Witness for C2 (amended) at a concrete infix and concrete calls. -/
theorem generate_shm_UUName_correct_witness :
    (generate_shm_UUName "abcdefg".toList 5).length = 23
    ∧ generate_shm_UUName "abcdefg".toList 1
        ≠ generate_shm_UUName "abcdefg".toList 2 :=
  ⟨(generate_shm_UUName_correct "abcdefg".toList (by decide)).1 5 (by decide),
   (generate_shm_UUName_correct "abcdefg".toList (by decide)).2 1 2 (by decide)⟩

/-- Counterexample to C2 as stated: the name returned by the first call
(with a seven-character infix, as in every run of the program) is 23
characters long, not 248. -/
theorem generate_shm_UUName_not_248 :
    (generate_shm_UUName "abcdefg".toList 0).length = 23
    ∧ (generate_shm_UUName "abcdefg".toList 0).length ≠ 248 := by
  constructor <;> decide

theorem poll_open_none (avail : Nat → Bool) :
    ∀ fuel k, (∀ j, k ≤ j → j < k + fuel → avail j = false) →
      poll_open avail k fuel = .error .notFound := by
  intro fuel
  induction fuel with
  | zero => intro k _; rfl
  | succ fuel ih =>
    intro k h
    have h0 : avail k = false := h k le_rfl (by omega)
    simp only [poll_open, h0, Bool.false_eq_true, if_false]
    exact ih (k + 1) fun j hj1 hj2 => h j (by omega) (by omega)

theorem poll_open_first (avail : Nat → Bool) :
    ∀ fuel k t, k ≤ t → t < k + fuel → avail t = true →
      (∀ j, k ≤ j → j < t → avail j = false) →
      poll_open avail k fuel = .ok t := by
  intro fuel
  induction fuel with
  | zero => omega
  | succ fuel ih =>
    intro k t hkt htf ht hbefore
    by_cases hk : k = t
    · subst hk
      simp only [poll_open, ht, if_true]
    · have h0 : avail k = false := hbefore k le_rfl (by omega)
      simp only [poll_open, h0, Bool.false_eq_true, if_false]
      exact ih (k + 1) t (by omega) (by omega) ht
        fun j hj1 hj2 => hbefore j (by omega) hj2

/-- Claim C3 (amended): in every build mode — the accessor branch has no
debug/release conditional — construction polls for the shm file every
20 ms for up to 1 s: it succeeds at the first poll at which the file
exists and fails with NotFound only when the file is absent at every
poll within the bound; there is no release-mode fail-fast path. -/
theorem map_shm_open_polls (avail : Nat → Bool) :
    ((∀ k, k < accessor_max_polls → avail k = false) →
      map_shm_open avail = .error .notFound)
    ∧ ∀ k, k < accessor_max_polls → avail k = true →
        (∀ j, j < k → avail j = false) → map_shm_open avail = .ok k := by
  constructor
  · intro h
    exact poll_open_none avail accessor_max_polls 0
      fun j _ hj2 => h j (by omega)
  · intro k hk ht hbefore
    exact poll_open_first avail accessor_max_polls 0 k (by omega) (by omega)
      ht fun j _ hj2 => hbefore j hj2

/-- Witness for C3 (amended): a file that never appears is NotFound
after the full bounded wait; a file appearing at the third poll is
opened successfully. -/
theorem map_shm_open_polls_witness :
    map_shm_open (fun _ => false) = .error .notFound
    ∧ map_shm_open (fun k => decide (2 ≤ k)) = .ok 2 :=
  ⟨(map_shm_open_polls (fun _ => false)).1 (fun _ _ => rfl),
   (map_shm_open_polls (fun k => decide (2 ≤ k))).2 2 (by decide) (by decide)
     (by decide)⟩

/-- Counterexample to C3 as stated: with the shm file absent at
construction time (poll 0) but present from the next poll on (20 ms
later), the constructor waits and then succeeds — in release builds as
much as in debug builds — instead of failing NotFound immediately
without waiting. -/
theorem map_shm_open_not_failfast :
    (fun k => decide (1 ≤ k)) 0 = false
    ∧ map_shm_open (fun k => decide (1 ≤ k)) = .ok 1 := by
  constructor
  · rfl
  · rfl

/-- Claim C4 (amended): constructing a Creator with size = 0 does not
raise InvalidArgument for any name and any shm namespace: a debug build
aborts on a failed assert (`assert(result_resize != -1)` when the name
is taken, otherwise `assert(size)`) before reaching `mmap`, and a
release build is undefined; no error value is returned. -/
theorem map_shm_create_zero (existing : List (List Char))
    (name : List Char) :
    map_shm_create existing name 0 = .error .assertFailed := by
  unfold map_shm_create
  by_cases h : name ∈ existing
  · rw [if_pos h]
  · rw [if_neg h, if_pos rfl]

/-- Counterexample to C4 as stated: creating `/x` with size 0 in an
empty shm namespace trips an assert; it does not produce the
InvalidArgument error. -/
theorem map_shm_create_zero_not_invalid :
    map_shm_create [] "/x".toList 0 = .error .assertFailed
    ∧ Err.assertFailed ≠ Err.invalidArgument := by
  exact ⟨rfl, by decide⟩

theorem mem_insertByBase {x r : Region} : ∀ {st : List Region},
    x ∈ insertByBase r st ↔ x = r ∨ x ∈ st := by
  intro st
  induction st with
  | nil => simp [insertByBase]
  | cons y ys ih =>
    simp only [insertByBase]
    by_cases h : r.base < y.base
    · rw [if_pos h]
      simp only [List.mem_cons]
    · rw [if_neg h]
      simp only [List.mem_cons, ih]
      tauto

theorem lastLE_mem {obj : Nat} : ∀ {st : List Region} {r : Region},
    lastLE obj st = some r → r ∈ st := by
  intro st
  induction st with
  | nil => intro r h; cases h
  | cons x xs ih =>
    intro r h
    simp only [lastLE] at h
    by_cases hx : x.base ≤ obj
    · rw [if_pos hx] at h
      cases hlx : lastLE obj xs with
      | none =>
        rw [hlx] at h
        simp only [Option.getD_none, Option.some.injEq] at h
        subst h
        exact List.mem_cons_self x xs
      | some y =>
        rw [hlx] at h
        simp only [Option.getD_some, Option.some.injEq] at h
        subst h
        exact List.mem_cons_of_mem x (ih hlx)
    · rw [if_neg hx] at h
      cases h

theorem lastLE_of_contains {obj : Nat} (hnw : obj + 1 < sizeMod) :
    ∀ {st : List Region} {r : Region},
    st.Pairwise (fun a b => a.base + a.len ≤ b.base) → r ∈ st →
    obj_in_shm obj r → lastLE obj st = some r := by
  intro st
  induction st with
  | nil => intro r _ hr; cases hr
  | cons x xs ih =>
    intro r hpw hr hobj
    obtain ⟨hpw1, hpw2⟩ := List.pairwise_cons.mp hpw
    obtain ⟨hlo, hhi⟩ := hobj
    rw [Nat.mod_eq_of_lt hnw] at hhi
    rcases List.mem_cons.mp hr with rfl | hmem
    · simp only [lastLE, if_pos hlo]
      cases xs with
      | nil => rfl
      | cons y ys =>
        have hxy : r.base + r.len ≤ y.base :=
          hpw1 y (List.mem_cons_self y ys)
        have hny : ¬ y.base ≤ obj := by omega
        simp only [lastLE, if_neg hny, Option.getD_none]
    · have hpx : x.base + x.len ≤ r.base := hpw1 r hmem
      have hxle : x.base ≤ obj := by omega
      simp only [lastLE, if_pos hxle,
        ih hpw2 hmem ⟨hlo, by rw [Nat.mod_eq_of_lt hnw]; exact hhi⟩,
        Option.getD_some]

/-- Claim C6 (amended): for the ordered resource — the owned regions
being pairwise disjoint in a base-sorted set, as distinct kernel
mappings are — and for every pointer `obj` below UINTPTR_MAX (so that
the `uintptr_t(obj) + 1` of the bounds check does not wrap),
`find_arena obj` returns the owned region whose byte range contains
`obj` whenever one exists, never returns a region not containing `obj`,
and raises InvalidArgument exactly when no owned region contains `obj`.
At `obj = UINTPTR_MAX` the wrapped upper check passes spuriously and a
wrong region can be returned (see the counterexample). -/
theorem find_arena_correct (st : List Region) (obj : Nat)
    (hdisj : st.Pairwise (fun a b => a.base + a.len ≤ b.base))
    (hnw : obj + 1 < sizeMod) :
    (∀ r ∈ st, obj_in_shm obj r → find_arena st obj = .ok r)
    ∧ (∀ r, find_arena st obj = .ok r → r ∈ st ∧ obj_in_shm obj r)
    ∧ (find_arena st obj = .error .invalidArgument
        ↔ ∀ r ∈ st, ¬ obj_in_shm obj r) := by
  have hsound : ∀ r, find_arena st obj = .ok r →
      r ∈ st ∧ obj_in_shm obj r := by
    intro r h
    rw [find_arena] at h
    cases hlx : lastLE obj st with
    | none => rw [hlx] at h; cases h
    | some shm =>
      rw [hlx] at h
      simp only [check_arena] at h
      by_cases hin : obj_in_shm obj shm
      · rw [if_pos hin] at h
        injection h with h
        subst h
        exact ⟨lastLE_mem hlx, hin⟩
      · rw [if_neg hin] at h
        cases h
  have hpos : ∀ r ∈ st, obj_in_shm obj r → find_arena st obj = .ok r := by
    intro r hr hobj
    rw [find_arena, lastLE_of_contains hnw hdisj hr hobj]
    simp only [check_arena]
    rw [if_pos hobj]
  refine ⟨hpos, hsound, ?_, ?_⟩
  · intro herr r hr hobj
    rw [hpos r hr hobj] at herr
    cases herr
  · intro hall
    rw [find_arena]
    cases hlx : lastLE obj st with
    | none => rfl
    | some shm =>
      simp only [check_arena]
      rw [if_neg (hall shm (lastLE_mem hlx))]

/-- Witness for C6 (amended) on a concrete two-region resource: the
pointer 73 lies in the first region and `find_arena` returns it; the
pointer 5000 lies in the gap between the regions and `find_arena`
raises InvalidArgument. -/
theorem find_arena_correct_witness :
    find_arena [⟨"/A".toList, 0, 4096⟩, ⟨"/B".toList, 8192, 100⟩] 73
      = .ok ⟨"/A".toList, 0, 4096⟩
    ∧ find_arena [⟨"/A".toList, 0, 4096⟩, ⟨"/B".toList, 8192, 100⟩] 5000
      = .error .invalidArgument := by
  have hpw : ([⟨"/A".toList, 0, 4096⟩, ⟨"/B".toList, 8192, 100⟩]
      : List Region).Pairwise (fun a b => a.base + a.len ≤ b.base) := by
    simp [List.pairwise_cons]
  exact ⟨(find_arena_correct _ 73 hpw (by decide)).1 _ (by simp) (by decide),
    (find_arena_correct _ 5000 hpw (by decide)).2.2.mpr (by
      intro r hr
      simp only [List.mem_cons, List.mem_singleton] at hr
      rcases hr with rfl | rfl | h
      · exact (by decide : ¬ obj_in_shm 5000 ⟨"/A".toList, 0, 4096⟩)
      · exact (by decide : ¬ obj_in_shm 5000 ⟨"/B".toList, 8192, 100⟩)
      · cases h)⟩

/-- Counterexample to C6 as stated: at `obj = UINTPTR_MAX` (the pointer
value `(void *)-1`), `uintptr_t(obj) + 1` wraps to the null pointer, so
the upper-bound check of `obj_in_shm` passes spuriously and
`find_arena` returns the owned region with the highest base — a region
whose byte range does not contain `obj` — instead of raising
InvalidArgument. -/
theorem find_arena_wrap_counterexample :
    find_arena [⟨"/A".toList, 0, 4096⟩] (sizeMod - 1)
      = .ok ⟨"/A".toList, 0, 4096⟩
    ∧ ¬ sizeMod - 1 < 0 + 4096 := by
  exact ⟨rfl, by decide⟩

/-- Claim C5: on either index variant, `allocate` with alignment greater
than the page size throws `TooLargeAlignment` (AlignmentUnsupported)
before any region is created or inserted — the error is raised first,
so the resource state is untouched — and the very same state still
serves later well-formed allocations. -/
theorem do_allocate_align_guard (ps : Nat) (st : List Region)
    (hst : HashedResource) (name : List Char) (base size alignment : Nat)
    (halign : ps < alignment) :
    do_allocate_ordered ps st name base size alignment
        = .error .alignmentUnsupported
    ∧ do_allocate_hashed ps hst name base size alignment
        = .error .alignmentUnsupported
    ∧ (∀ name2 base2 size2 align2, 0 < size2 → align2 ≤ ps →
        (∀ r ∈ st, r.base ≠ base2) →
        do_allocate_ordered ps st name2 base2 size2 align2
          = .ok (base2, insertByBase ⟨name2, base2, size2⟩ st))
    ∧ (∀ name2 base2 size2 align2, 0 < size2 → align2 ≤ ps →
        (∀ r ∈ hst.resources, r.base ≠ base2) →
        do_allocate_hashed ps hst name2 base2 size2 align2
          = .ok (base2, ⟨⟨name2, base2, size2⟩ :: hst.resources,
              some ⟨name2, base2, size2⟩⟩)) := by
  have hany : ∀ (l : List Region) (b : Nat), (∀ r ∈ l, r.base ≠ b) →
      l.any (fun r => r.base == b) = false := by
    intro l b h
    rw [List.any_eq_false]
    intro r hr
    simpa using h r hr
  refine ⟨?_, ?_, ?_, ?_⟩
  · rw [do_allocate_ordered, if_pos halign]
  · rw [do_allocate_hashed, if_pos halign]
  · intro name2 base2 size2 align2 hsz hal hfresh
    rw [do_allocate_ordered, if_neg (by omega), if_neg (by omega)]
    simp only [hany st base2 hfresh, Bool.false_eq_true, if_false]
  · intro name2 base2 size2 align2 hsz hal hfresh
    rw [do_allocate_hashed, if_neg (by omega), if_neg (by omega)]
    simp only [hany hst.resources base2 hfresh, Bool.false_eq_true,
      if_false]

/-- Witness for C5: a 64-byte request aligned to 8192 > 4096 fails with
AlignmentUnsupported on both fresh resources, and the same resources
then serve an allocation with alignment 16. -/
theorem do_allocate_align_guard_witness :
    do_allocate_ordered 4096 [] "/n".toList 4096 64 8192
        = .error .alignmentUnsupported
    ∧ do_allocate_hashed 4096 ⟨[], none⟩ "/n".toList 4096 64 8192
        = .error .alignmentUnsupported
    ∧ do_allocate_ordered 4096 [] "/m".toList 8192 64 16
        = .ok (8192, insertByBase ⟨"/m".toList, 8192, 64⟩ [])
    ∧ do_allocate_hashed 4096 ⟨[], none⟩ "/m".toList 8192 64 16
        = .ok (8192, ⟨[⟨"/m".toList, 8192, 64⟩],
            some ⟨"/m".toList, 8192, 64⟩⟩) := by
  obtain ⟨h1, h2, h3, h4⟩ := do_allocate_align_guard 4096 [] ⟨[], none⟩
    "/n".toList 4096 64 8192 (by decide)
  exact ⟨h1, h2,
    h3 "/m".toList 8192 64 16 (by decide) (by decide) (fun r hr => nomatch hr),
    h4 "/m".toList 8192 64 16 (by decide) (by decide) (fun r hr => nomatch hr)⟩

/-- Claim C10 (implicit): a successful `allocate(size, align)` on either
index variant inserts a region whose length is exactly the requested
`size` — `do_allocate` passes `size` unrounded to the `Shared_Memory`
constructor — so the unique owned region based at the returned pointer
has `len = size` (a strict tightening of the documented
`size ≤ len ≤ page_ceil(size)` bound), the backing file is truncated to
exactly `size` bytes, and an accessor of that name maps exactly `size`
bytes. -/
theorem do_allocate_exact_size (ps : Nat) (st : List Region)
    (hst : HashedResource) (existing : List (List Char))
    (name : List Char) (base size alignment : Nat)
    (hps : 0 < ps) (hsize : 0 < size) (halign : alignment ≤ ps)
    (hfresh : ∀ r ∈ st, r.base ≠ base)
    (hfreshh : ∀ r ∈ hst.resources, r.base ≠ base)
    (hname : name ∉ existing) :
    (do_allocate_ordered ps st name base size alignment
        = .ok (base, insertByBase ⟨name, base, size⟩ st)
      ∧ (⟨name, base, size⟩ : Region) ∈ insertByBase ⟨name, base, size⟩ st
      ∧ ∀ r ∈ insertByBase ⟨name, base, size⟩ st, r.base = base →
          r = ⟨name, base, size⟩)
    ∧ (do_allocate_hashed ps hst name base size alignment
        = .ok (base, ⟨⟨name, base, size⟩ :: hst.resources,
            some ⟨name, base, size⟩⟩)
      ∧ ∀ r ∈ (⟨name, base, size⟩ :: hst.resources : List Region),
          r.base = base → r = ⟨name, base, size⟩)
    ∧ (⟨name, base, size⟩ : Region).len = size
    ∧ size ≤ (⟨name, base, size⟩ : Region).len
    ∧ (⟨name, base, size⟩ : Region).len ≤ page_ceil ps size
    ∧ map_shm_create existing name size = .ok size
    ∧ fstat_wait_len size = some size := by
  obtain ⟨-, -, h3, h4⟩ := do_allocate_align_guard ps st hst name base size
    (ps + 1) (by omega)
  refine ⟨⟨h3 name base size alignment hsize halign hfresh, ?_, ?_⟩,
    ⟨h4 name base size alignment hsize halign hfreshh, ?_⟩, rfl,
    le_refl size, le_page_ceil ps size hps, ?_, ?_⟩
  · exact mem_insertByBase.mpr (Or.inl rfl)
  · intro r hr hbase
    rcases mem_insertByBase.mp hr with rfl | hmem
    · rfl
    · exact absurd hbase (hfresh r hmem)
  · intro r hr hbase
    rcases List.mem_cons.mp hr with rfl | hmem
    · rfl
    · exact absurd hbase (hfreshh r hmem)
  · rw [map_shm_create, if_neg hname, if_neg (by omega)]
  · rw [fstat_wait_len, if_neg (by omega)]

theorem lt_div_succ_mul (x a : Nat) (ha : 0 < a) : x < (x / a + 1) * a := by
  rw [Nat.add_mul, one_mul, Nat.mul_comm (x / a) a]
  have hdm := Nat.div_add_mod x a
  have hm : x % a < a := Nat.mod_lt _ ha
  omega

theorem le_alignUp (addr : Nat) {align : Nat} (ha : 0 < align) :
    addr ≤ alignUp addr align := by
  unfold alignUp
  rw [if_neg (by omega)]
  have key := lt_div_succ_mul (addr + align - 1) align ha
  rw [Nat.add_mul, one_mul] at key
  omega

theorem alignUp_of_dvd {addr align : Nat} (ha : 0 < align)
    (h : align ∣ addr) : alignUp addr align = addr := by
  obtain ⟨q, rfl⟩ := h
  unfold alignUp
  rw [if_neg (by omega)]
  have h1 : align * q + align - 1 = align * q + (align - 1) := by omega
  rw [h1, Nat.mul_add_div ha, Nat.div_eq_of_lt (by omega), Nat.add_zero,
    Nat.mul_comm]

theorem mono_refill_ok {ps : Nat} {name : List Char}
    {base size alignment p : Nat} {st st2 : MonoBuffer}
    (hal0 : 0 < alignment) (hdvd : alignment ∣ base)
    (h : mono_refill ps name base size alignment st = .ok (p, st2)) :
    p = base
    ∧ st2 = ⟨some ⟨name, base,
          max (page_ceil ps size) st.next_chunk⟩,
        base + size, st.next_chunk * 2,
        ⟨⟨name, base, max (page_ceil ps size) st.next_chunk⟩
            :: st.upstream.resources,
          some ⟨name, base,
            max (page_ceil ps size) st.next_chunk⟩⟩⟩ := by
  rw [mono_refill] at h
  split at h
  · cases h
  · rename_i b up heq
    rw [do_allocate_hashed] at heq
    split at heq
    · cases heq
    · split at heq
      · cases heq
      · split at heq
        · cases heq
        · simp only [Except.ok.injEq, Prod.mk.injEq] at heq h
          obtain ⟨hb, hup⟩ := heq
          obtain ⟨hp, hst2⟩ := h
          subst hb
          subst hup
          rw [alignUp_of_dvd hal0 hdvd] at hp hst2
          exact ⟨hp.symm, hst2.symm⟩

/-- Claim C7: every successful `Monotonic_ShM_Buffer::allocate` returns
a pointer whose `size` bytes lie inside the region currently reported as
`last_inserted` by the upstream `ShM_Resource<std::unordered_set>`, and
the buffer/upstream invariant is preserved.  The oracle `base` is the
kernel-chosen, page-aligned base of any freshly mapped region, hence the
divisibility hypothesis for alignments up to the page size. -/
theorem mono_allocate_in_last_inserted (ps : Nat) (st st2 : MonoBuffer)
    (name : List Char) (base size alignment p : Nat)
    (hinv : MonoInv st) (hps : 0 < ps) (hal0 : 0 < alignment)
    (hdvd : alignment ∣ base)
    (h : mono_allocate ps name base size alignment st = .ok (p, st2)) :
    (∃ r, st2.upstream.last_inserted = some r
      ∧ r.base ≤ p ∧ p + size ≤ r.base + r.len)
    ∧ MonoInv st2 := by
  obtain ⟨cur, cursor, next_chunk, up⟩ := st
  have hrefill : ∀ (c : Option Region),
      mono_refill ps name base size alignment
          ⟨c, cursor, next_chunk, up⟩ = .ok (p, st2) →
      (∃ r, st2.upstream.last_inserted = some r
        ∧ r.base ≤ p ∧ p + size ≤ r.base + r.len) ∧ MonoInv st2 := by
    intro c hre
    obtain ⟨hp, hst2⟩ := mono_refill_ok hal0 hdvd hre
    subst hp
    subst hst2
    have hsz : size ≤ max (page_ceil ps size) next_chunk :=
      le_trans (le_page_ceil ps size hps) (le_max_left _ _)
    refine ⟨⟨⟨name, p, max (page_ceil ps size) next_chunk⟩,
      rfl, le_refl _, by simpa using hsz⟩, ?_⟩
    intro r2 hr2
    injection hr2 with hr2
    subst hr2
    exact ⟨rfl, by simp, by simpa using hsz⟩
  cases cur with
  | none => exact hrefill none h
  | some r =>
    simp only [mono_allocate] at h
    by_cases hfit : alignUp cursor alignment + size ≤ r.base + r.len
    · rw [if_pos hfit] at h
      simp only [Except.ok.injEq, Prod.mk.injEq] at h
      obtain ⟨hp, hst2⟩ := h
      subst hp
      subst hst2
      obtain ⟨hlast, hlo, hhi⟩ := hinv r rfl
      dsimp only at hlast hlo hhi
      have hcp : cursor ≤ alignUp cursor alignment := le_alignUp cursor hal0
      refine ⟨⟨r, hlast, by omega, hfit⟩, ?_⟩
      intro r2 hr2
      injection hr2 with hr2
      subst hr2
      exact ⟨hlast, by simp; omega, by simpa using hfit⟩
    · rw [if_neg hfit] at h
      exact hrefill (some r) h

/-- Witness for C7: the first allocation (100 bytes, alignment 8) from a
fresh buffer with one-byte initial size; the upstream maps the new
region at 8192, `allocate` returns 8192, and the block lies inside the
upstream region `last_inserted` reports. -/
theorem mono_allocate_in_last_inserted_witness :
    (∃ r, (⟨some ⟨"/q".toList, 8192, 4096⟩, 8292, 8192,
        ⟨[⟨"/q".toList, 8192, 4096⟩], some ⟨"/q".toList, 8192, 4096⟩⟩⟩
          : MonoBuffer).upstream.last_inserted = some r
      ∧ r.base ≤ 8192 ∧ 8192 + 100 ≤ r.base + r.len)
    ∧ MonoInv ⟨some ⟨"/q".toList, 8192, 4096⟩, 8292, 8192,
        ⟨[⟨"/q".toList, 8192, 4096⟩], some ⟨"/q".toList, 8192, 4096⟩⟩⟩ :=
  mono_allocate_in_last_inserted 4096 (mono_init 4096 1)
    ⟨some ⟨"/q".toList, 8192, 4096⟩, 8292, 8192,
      ⟨[⟨"/q".toList, 8192, 4096⟩], some ⟨"/q".toList, 8192, 4096⟩⟩⟩
    "/q".toList 8192 100 8 8192
    (by intro r hr; exact absurd hr (by simp [mono_init]))
    (by decide) (by decide) (by decide) rfl

/-- Witness for C10 at a concrete allocation of 100 bytes: the inserted
region and the accessor-visible length are exactly 100 bytes. -/
theorem do_allocate_exact_size_witness :
    do_allocate_ordered 4096 [] "/p".toList 4096 100 8
        = .ok (4096, insertByBase ⟨"/p".toList, 4096, 100⟩ [])
    ∧ map_shm_create [] "/p".toList 100 = .ok 100
    ∧ fstat_wait_len 100 = some 100 := by
  obtain ⟨⟨h1, -, -⟩, -, -, -, -, h2, h3⟩ := do_allocate_exact_size 4096 []
    ⟨[], none⟩ [] "/p".toList 4096 100 8 (by decide) (by decide) (by decide)
    (fun r hr => nomatch hr) (fun r hr => nomatch hr) (fun h => nomatch h)
  exact ⟨h1, h2, h3⟩

theorem length_filter_partition (st : List CacheEntry) :
    (st.filter (fun e => e.cnt == 0)).length
      + (st.filter (fun e => e.cnt != 0)).length = st.length := by
  induction st with
  | nil => rfl
  | cons x xs ih =>
    by_cases h : x.cnt = 0
    · simp [List.filter_cons, h] at ih ⊢
      omega
    · simp [List.filter_cons, h] at ih ⊢
      omega

theorem findEntry_mapCnt_self (f : Nat → Nat) :
    ∀ {st : List CacheEntry} {n : List Char} {e : CacheEntry},
    findEntry st n = some e →
    findEntry (mapCnt f st n) n = some ⟨e.name, e.len, f e.cnt⟩ := by
  intro st
  induction st with
  | nil => intro n e h; cases h
  | cons x xs ih =>
    intro n e h
    rw [findEntry] at h
    cases hx : (x.name == n) with
    | true =>
      rw [List.find?_cons_of_pos _ (by simpa using hx)] at h
      injection h with h
      subst h
      rw [mapCnt, List.map_cons]
      simp only [hx, if_pos]
      rw [findEntry, List.find?_cons_of_pos _ (by simpa using hx)]
    | false =>
      rw [List.find?_cons_of_neg _ (by simpa using hx)] at h
      rw [mapCnt, List.map_cons]
      simp only [hx, Bool.false_eq_true, if_false]
      rw [findEntry, List.find?_cons_of_neg _ (by simpa using hx)]
      exact ih h

theorem findEntry_mapCnt_other (f : Nat → Nat) :
    ∀ {st : List CacheEntry} {n m : List Char}, m ≠ n →
    findEntry (mapCnt f st n) m = findEntry st m := by
  intro st
  induction st with
  | nil => intro n m _; rfl
  | cons x xs ih =>
    intro n m hmn
    rw [mapCnt, List.map_cons]
    cases hx : (x.name == n) with
    | true =>
      simp only [hx, if_pos]
      have hxn : x.name = n := by simpa using hx
      have hxm : (x.name == m) = false := by
        simp only [beq_eq_false_iff_ne, ne_eq, hxn]
        exact fun hc => hmn hc.symm
      rw [findEntry, List.find?_cons_of_neg _ (by simpa using hxm),
        findEntry, List.find?_cons_of_neg _ (by simpa using hxm)]
      exact ih hmn
    | false =>
      simp only [hx, Bool.false_eq_true, if_false]
      cases hxm : (x.name == m) with
      | true =>
        rw [findEntry, List.find?_cons_of_pos _ (by simpa using hxm),
          findEntry, List.find?_cons_of_pos _ (by simpa using hxm)]
      | false =>
        rw [findEntry, List.find?_cons_of_neg _ (by simpa using hxm),
          findEntry, List.find?_cons_of_neg _ (by simpa using hxm)]
        exact ih hmn

theorem read_of_cached (fs : List (List Char × Nat))
    {st : List CacheEntry} {n : List Char} {e : CacheEntry}
    (sizeT offset : Nat) (hfind : findEntry st n = some e) :
    read sizeT fs st n offset
      = .ok ((n, offset), mapCnt (fun c => c + 1) st n) := by
  have hname : e.name = n := by
    have := List.find?_some hfind
    simpa using this
  simp only [read, select_shm, hfind, hname]

theorem lookupCnt_mapCnt_self {st : List CacheEntry} {n : List Char}
    {e : CacheEntry} (f : Nat → Nat) (hfind : findEntry st n = some e) :
    lookupCnt (mapCnt f st n) n = f e.cnt := by
  rw [lookupCnt, findEntry_mapCnt_self f hfind]

/-- Claim C8: `gc()` removes exactly the cache entries whose borrow
count is 0 and returns the number removed, retaining every entry with a
positive count; a `read` of a cached name returns a borrow and
increments that entry's borrow count by one, leaving every other count
unchanged; destroying the borrow decrements the count by one. -/
theorem reader_gc_read_borrow (st : List CacheEntry) :
    ((gc_ st).1 + (gc_ st).2.length = st.length
      ∧ ∀ e, e ∈ (gc_ st).2 ↔ e ∈ st ∧ e.cnt ≠ 0)
    ∧ (∀ fs n offset sizeT e, findEntry st n = some e →
        read sizeT fs st n offset
            = .ok ((n, offset), mapCnt (fun c => c + 1) st n)
          ∧ lookupCnt (mapCnt (fun c => c + 1) st n) n
              = lookupCnt st n + 1)
    ∧ (∀ n e, findEntry st n = some e → 0 < e.cnt →
        lookupCnt (drop_borrow st n) n + 1 = lookupCnt st n)
    ∧ (∀ n m, m ≠ n →
        lookupCnt (mapCnt (fun c => c + 1) st n) m = lookupCnt st m
        ∧ lookupCnt (drop_borrow st n) m = lookupCnt st m) := by
  refine ⟨⟨length_filter_partition st, ?_⟩, ?_, ?_, ?_⟩
  · intro e
    rw [gc_]
    simp only [List.mem_filter, bne_iff_ne, ne_eq]
  · intro fs n offset sizeT e hfind
    refine ⟨read_of_cached fs sizeT offset hfind, ?_⟩
    rw [lookupCnt_mapCnt_self _ hfind]
    simp only [lookupCnt, hfind]
  · intro n e hfind hpos
    rw [drop_borrow, lookupCnt_mapCnt_self _ hfind]
    simp only [lookupCnt, hfind]
    omega
  · intro n m hmn
    constructor
    · rw [lookupCnt, findEntry_mapCnt_other _ hmn, lookupCnt]
    · rw [drop_borrow, lookupCnt, findEntry_mapCnt_other _ hmn, lookupCnt]

/-- Witness for C8 on a two-entry cache (counts 0 and 2): `gc` drops
exactly the idle entry and reports 1; a read of the busy entry bumps its
count from 2 to 3; dropping the borrow restores 2. -/
theorem reader_gc_read_borrow_witness :
    ((gc_ [⟨"/a".toList, 16, 0⟩, ⟨"/b".toList, 16, 2⟩]).1
        + (gc_ [⟨"/a".toList, 16, 0⟩, ⟨"/b".toList, 16, 2⟩]).2.length = 2
      ∧ ∀ e, e ∈ (gc_ [⟨"/a".toList, 16, 0⟩, ⟨"/b".toList, 16, 2⟩]).2
          ↔ e ∈ [⟨"/a".toList, 16, 0⟩, ⟨"/b".toList, 16, 2⟩] ∧ e.cnt ≠ 0)
    ∧ lookupCnt (mapCnt (fun c => c + 1)
        [⟨"/a".toList, 16, 0⟩, ⟨"/b".toList, 16, 2⟩] "/b".toList)
        "/b".toList
      = lookupCnt [⟨"/a".toList, 16, 0⟩, ⟨"/b".toList, 16, 2⟩]
          "/b".toList + 1
    ∧ lookupCnt (drop_borrow
        [⟨"/a".toList, 16, 0⟩, ⟨"/b".toList, 16, 2⟩] "/b".toList)
        "/b".toList + 1
      = lookupCnt [⟨"/a".toList, 16, 0⟩, ⟨"/b".toList, 16, 2⟩]
          "/b".toList := by
  obtain ⟨⟨h1, h2⟩, h3, h4, -⟩ :=
    reader_gc_read_borrow [⟨"/a".toList, 16, 0⟩, ⟨"/b".toList, 16, 2⟩]
  exact ⟨⟨h1, h2⟩,
    (h3 [] "/b".toList 0 1 ⟨"/b".toList, 16, 2⟩ rfl).2,
    h4 "/b".toList ⟨"/b".toList, 16, 2⟩ rfl (by decide)⟩

/-- Claim C1 (amended): `ShM_Reader::read<T>` performs no bounds check:
for a cached name `n` it never returns the OutOfBounds error — even
when `offset + sizeof(T)` exceeds the cached region's length it returns
a borrow referring to `data + offset` — and it mutates the reader's
cache by incrementing the borrow count of the entry it read from. -/
theorem read_no_bounds_check (fs : List (List Char × Nat))
    (st : List CacheEntry) (n : List Char) (offset sizeT : Nat)
    (e : CacheEntry) (hfind : findEntry st n = some e)
    (hviol : e.len < offset + sizeT) :
    read sizeT fs st n offset
        = .ok ((n, offset), mapCnt (fun c => c + 1) st n)
    ∧ read sizeT fs st n offset ≠ .error .outOfBounds
    ∧ lookupCnt (mapCnt (fun c => c + 1) st n) n = e.cnt + 1 := by
  have hok := read_of_cached fs sizeT offset hfind
  refine ⟨hok, ?_, ?_⟩
  · rw [hok]
    intro hc
    cases hc
  · rw [lookupCnt_mapCnt_self _ hfind]

/-- Witness for C1 (amended): name `/y` cached with region length 2 and
borrow count 5; reading 8 bytes at offset 50 — far past the end —
succeeds and bumps the count to 6. -/
theorem read_no_bounds_check_witness :
    read 8 [] [⟨"/y".toList, 2, 5⟩] "/y".toList 50
        = .ok (("/y".toList, 50),
          mapCnt (fun c => c + 1) [⟨"/y".toList, 2, 5⟩] "/y".toList)
    ∧ read 8 [] [⟨"/y".toList, 2, 5⟩] "/y".toList 50
        ≠ .error .outOfBounds
    ∧ lookupCnt (mapCnt (fun c => c + 1) [⟨"/y".toList, 2, 5⟩]
        "/y".toList) "/y".toList = 5 + 1 :=
  read_no_bounds_check [] [⟨"/y".toList, 2, 5⟩] "/y".toList 50 8
    ⟨"/y".toList, 2, 5⟩ rfl (by decide)

/-- Counterexample to C1 as stated: name `/x` cached with region length
1 and borrow count 0; `read<T>` with `sizeof(T) = 4` at offset 100
violates the claimed bounds check (100 + 4 > 1), yet the code returns a
borrow — not the OutOfBounds error — and changes the cache, raising the
borrow count from 0 to 1. -/
theorem read_oob_counterexample :
    read 4 [] [⟨"/x".toList, 1, 0⟩] "/x".toList 100
      = .ok (("/x".toList, 100), [⟨"/x".toList, 1, 1⟩])
    ∧ read 4 [] [⟨"/x".toList, 1, 0⟩] "/x".toList 100
      ≠ .error .outOfBounds := by
  refine ⟨rfl, fun h => ?_⟩
  rw [show read 4 [] [⟨"/x".toList, 1, 0⟩] "/x".toList 100
      = .ok (("/x".toList, 100), [⟨"/x".toList, 1, 1⟩]) from rfl] at h
  cases h

end Ipcator
